import Mathlib

/-!
Verification of the Semantle guess-ranking and session engine.

The repository is a semantic word-guessing game: a backend engine scores
guesses against a hidden target word by cosine similarity of embedding
vectors and ranks each guess within the whole vocabulary; a React frontend
displays the results; a Solidity contract stores per-user statistics.

The backend engine (`backend/main.py`) is not present among the sources
(only its startup script, the frontend callers and the deployment notes
are), so the engine components below are modelled from the specification.
The statistics contract (`contracts/contracts/SemantleStats.sol`) and the
UI proximity bucketing (`GuessList.jsx`) are present and are embedded
directly from their sources.
-/

open Classical

namespace Semantle

/-- Modelled from the spec: the backend Similarity Ranker is missing from
the sources.  Dot product of two embedding vectors (componentwise product,
truncated to the shorter vector, summed). -/
noncomputable def dot (a b : List ℝ) : ℝ := (List.zipWith (· * ·) a b).sum

/-- Modelled from the spec: Euclidean norm ‖a‖ = √(a·a). -/
noncomputable def norm (a : List ℝ) : ℝ := Real.sqrt (dot a a)

/-- Modelled from the spec: cosine similarity = dot(a,b) / (‖a‖·‖b‖),
defined as 0 when either vector has zero norm (the division is guarded). -/
noncomputable def similarity (a b : List ℝ) : ℝ :=
  if norm a = 0 ∨ norm b = 0 then 0 else dot a b / (norm a * norm b)

/-- A vocabulary entry: a word together with its embedding vector. -/
abbrev Entry := String × List ℝ

/-- Modelled from the spec: `all_words()`, the stable iteration order of the
Vocabulary Store used as the tie-break basis for ranking. -/
def words (vocab : List Entry) : List String := vocab.map Prod.fst

/-- Modelled from the spec: `vector_of(word)`; the empty vector stands for
NotFound (the evaluator validates membership before calling it). -/
def vector_of (vocab : List Entry) (w : String) : List ℝ :=
  match vocab.find? (fun e => e.1 == w) with
  | some e => e.2
  | none => []

/-- Modelled from the spec: rank of `w` in the total ordering of all
vocabulary words by similarity to the target, descending; ties are broken
by vocabulary iteration order.  The rank is 1 plus the number of words
strictly ahead of `w`: those with larger similarity, and those with equal
similarity appearing earlier in the vocabulary order. -/
noncomputable def rank_of (sim : String → ℝ) (ws : List String) (w : String) : ℕ :=
  1 + (ws.map fun v =>
    if sim w < sim v ∨ (sim v = sim w ∧ v ∈ ws.takeWhile (fun x => x != w)) then 1 else 0).sum

/-- Modelled from the spec: a stable hash of the ISO date string; the exact
deterministic function is left open by the spec, any pure function of the
date string is conformant. -/
def dateHash (date : String) : ℕ :=
  date.data.foldl (fun h c => h * 31 + c.toNat) 7

/-- Modelled from the spec: `daily_target(vocabulary, date_utc)`, a
deterministic pure function of the UTC calendar date and the vocabulary
(hash of the date string reduced modulo the vocabulary size, indexed into
the fixed vocabulary ordering). -/
def daily_target (ws : List String) (date : String) : Option String :=
  ws.get? (dateHash date % ws.length)

/-- Modelled from the spec: `random_target(vocabulary)`, a uniform pick
driven by a random seed (the mutable state that daily mode must ignore). -/
def random_target (ws : List String) (seed : ℕ) : Option String :=
  ws.get? (seed % ws.length)

/-- Modelled from the spec: the Target Selector used on `new game`; only
non-daily games consult the random seed. -/
def select_target (ws : List String) (daily : Bool) (date : String) (seed : ℕ) :
    Option String :=
  if daily then daily_target ws date else random_target ws seed

/-- Modelled from the spec: one scored guess. -/
structure Attempt where
  word : String
  similarity : ℝ
  rank : ℕ
  is_correct : Bool

/-- Modelled from the spec: the server-side record of one game. -/
structure GameSession where
  session_id : ℕ
  target_word : String
  is_daily : Bool
  created_at : ℕ
  attempts : List Attempt
  is_completed : Bool

/-- Modelled from the spec: the Session Store, an owned table of live
sessions keyed by session id, plus the fresh-id allocator. -/
structure SessionStore where
  sessions : List (ℕ × GameSession)
  next_id : ℕ

/-- Modelled from the spec: `create(target_word, is_daily)` allocates a
fresh unique session id and initializes `attempts = []`,
`is_completed = false`. -/
def SessionStore.create (st : SessionStore) (target : String) (is_daily : Bool)
    (now : ℕ) : GameSession × SessionStore :=
  let s : GameSession := ⟨st.next_id, target, is_daily, now, [], false⟩
  (s, ⟨(st.next_id, s) :: st.sessions, st.next_id + 1⟩)

/-- Modelled from the spec: `get(session_id) -> GameSession or NotFound`;
`none` is the NotFound outcome (surfaced as a 404-equivalent). -/
def SessionStore.get (st : SessionStore) (sid : ℕ) : Option GameSession :=
  match st.sessions.find? (fun e => e.1 == sid) with
  | some e => some e.2
  | none => none

/-- Modelled from the spec: `update(session_id, mutator)`, an atomic state
transition replacing the stored session. -/
def SessionStore.update (st : SessionStore) (sid : ℕ) (s : GameSession) : SessionStore :=
  ⟨st.sessions.map (fun e => if e.1 == sid then (sid, s) else e), st.next_id⟩

/-- Well-formedness of the allocator: every stored key is below `next_id`,
so the next allocated id is fresh. -/
def SessionStore.WF (st : SessionStore) : Prop :=
  ∀ e ∈ st.sessions, e.1 < st.next_id

/-- Modelled from the spec: the error taxonomy of the Guess Evaluator. -/
inductive GuessError where
  | invalidWord
  | sessionNotFound
  | sessionAlreadyCompleted
deriving DecidableEq

/-- Modelled from the spec: the per-guess response `{similarity, rank,
is_correct}`. -/
structure AttemptResult where
  similarity : ℝ
  rank : ℕ
  is_correct : Bool

/-- Modelled from the spec: guess normalization (trim, lower-case). -/
def normalizeWord (w : String) : String :=
  ⟨(((w.data.dropWhile (fun c => c = ' ')).reverse.dropWhile (fun c => c = ' ')).reverse).map
    Char.toLower⟩

/-- Modelled from the spec: `submit_guess(session_id, word)`.  Fetches the
session (`SessionNotFound` if absent, `SessionAlreadyCompleted` if done),
normalizes the word, validates membership (`InvalidWord`) before any
mutation, scores the guess, and atomically appends the attempt, setting
`is_completed` in the same transition when the guess is correct.  The
second component is the store after the call; error outcomes return the
store unchanged. -/
noncomputable def submit_guess (vocab : List Entry) (st : SessionStore) (sid : ℕ)
    (w : String) : Except GuessError AttemptResult × SessionStore :=
  match st.get sid with
  | none => (.error .sessionNotFound, st)
  | some s =>
    if s.is_completed then (.error .sessionAlreadyCompleted, st)
    else
      let word := normalizeWord w
      if (words vocab).contains word then
        let tv := vector_of vocab s.target_word
        let sim := similarity tv (vector_of vocab word)
        let rk := rank_of (fun v => similarity tv (vector_of vocab v)) (words vocab) word
        let correct := word == s.target_word
        let s' : GameSession :=
          { s with attempts := s.attempts ++ [⟨word, sim, rk, correct⟩],
                   is_completed := correct }
        (.ok ⟨sim, rk, correct⟩, st.update sid s')
      else (.error .invalidWord, st)

/-- The `UserStats` struct of `SemantleStats.sol`: uint256 counters for a
single user. -/
structure UserStats where
  totalGames : ℕ
  totalAttempts : ℕ
  bestScore : ℕ
  lastUpdated : ℕ
deriving DecidableEq

/-- `submitGame(uint16 attempts)` of `SemantleStats.sol` acting on one
user's stats.  `none` models a revert: the `require(attempts > 0)` guard,
and the checked uint256 overflow of Solidity ^0.8 on the two additions.
`timestamp` stands for `block.timestamp`. -/
def submitGame (s : UserStats) (attempts timestamp : ℕ) : Option UserStats :=
  if attempts = 0 then none
  else if 2 ^ 256 ≤ s.totalGames + 1 ∨ 2 ^ 256 ≤ s.totalAttempts + attempts then none
  else some ⟨s.totalGames + 1, s.totalAttempts + attempts,
    if s.bestScore = 0 ∨ attempts < s.bestScore then attempts else s.bestScore,
    timestamp⟩

/-- A sequence of `submitGame` transactions by one user; a reverted call
leaves the stats unchanged. -/
def processGames (timestamp : ℕ) : UserStats → List ℕ → UserStats
  | s, [] => s
  | s, a :: rest => processGames timestamp ((submitGame s a timestamp).getD s) rest

/-- The contract's best-score folding: 0 is the "no games yet" sentinel,
otherwise keep the minimum. -/
def bestMin (b : ℕ) (l : List ℕ) : ℕ :=
  l.foldl (fun acc a => if acc = 0 ∨ a < acc then a else acc) b

/-- Result type of `calculateProximity` in `GuessList.jsx`: a numeric
proximity or one of the two descriptive strings. -/
inductive Proximity where
  | score (n : ℤ)
  | cold
  | tepid
deriving DecidableEq

/-- `calculateProximity(rank, similarity, maxSimilarity)` from
`GuessList.jsx`: rank 1 is pinned to 1000; otherwise the similarity is
normalized to 0–1000, a penalty of 2 per rank step is subtracted, the
result is clamped at 0, low values become the strings 'cold'/'tepid', and
the rest is rounded (`Math.round`, i.e. ⌊x + 1/2⌋). -/
def calculateProximity (rank : ℕ) (similarity maxSimilarity : ℚ) : Proximity :=
  if rank = 1 then .score 1000
  else
    let normalizedSimilarity := similarity / maxSimilarity
    let proximity := normalizedSimilarity * 1000
    let rankPenalty := ((rank : ℚ) - 1) * 2
    let proximity2 := max 0 (proximity - rankPenalty)
    if proximity2 < 200 then .cold
    else if proximity2 < 500 then .tepid
    else .score (round proximity2)

noncomputable def catVec : List ℝ := [1, 0]

noncomputable def dogVec : List ℝ := [0.9, 0.1]

noncomputable def carVec : List ℝ := [0, 1]

noncomputable def zeroVec : List ℝ := [0, 0]

noncomputable def catVocab : List Entry := [("cat", catVec), ("dog", dogVec), ("car", carVec)]

noncomputable def st1 : SessionStore :=
  ⟨[(0, ⟨0, "cat", false, 0, [], false⟩)], 1⟩

noncomputable def dogAttempt : Attempt := ⟨"dog", similarity catVec dogVec, 2, false⟩

noncomputable def st2 : SessionStore :=
  ⟨[(0, ⟨0, "cat", false, 0, [dogAttempt], false⟩)], 1⟩

noncomputable def st3 : SessionStore :=
  ⟨[(0, ⟨0, "cat", false, 0, [dogAttempt, ⟨"car", 0, 3, false⟩], false⟩)], 1⟩

noncomputable def st4 : SessionStore :=
  ⟨[(0, ⟨0, "cat", false, 0,
      [dogAttempt, ⟨"car", 0, 3, false⟩, ⟨"cat", 1, 1, true⟩], true⟩)], 1⟩

/-- The similarity recorded for a correct guess: the target scored against
itself. -/
noncomputable def tSim (vocab : List Entry) (s : GameSession) : ℝ :=
  similarity (vector_of vocab s.target_word) (vector_of vocab s.target_word)

/-- The rank recorded for a correct guess: the target ranked against the
whole vocabulary. -/
noncomputable def tRank (vocab : List Entry) (s : GameSession) : ℕ :=
  rank_of (fun v => similarity (vector_of vocab s.target_word) (vector_of vocab v))
    (words vocab) s.target_word

/-- The session after a correct guess: the correct attempt appended and
`is_completed` set in the same transition. -/
noncomputable def completedSession (vocab : List Entry) (s : GameSession) : GameSession :=
  { s with
    attempts := s.attempts ++ [⟨s.target_word, tSim vocab s, tRank vocab s, true⟩],
    is_completed := true }

noncomputable def s3sess : GameSession :=
  ⟨0, "cat", false, 0, [dogAttempt, ⟨"car", 0, 3, false⟩], false⟩

noncomputable def s4sess : GameSession :=
  ⟨0, "cat", false, 0, [dogAttempt, ⟨"car", 0, 3, false⟩, ⟨"cat", 1, 1, true⟩], true⟩

/-! ## Lemmas and claim theorems -/

theorem dot_nil (b : List ℝ) : dot [] b = 0 := by simp [dot]

theorem dot_nil_right (a : List ℝ) : dot a [] = 0 := by simp [dot]

theorem dot_cons (x y : ℝ) (a b : List ℝ) : dot (x :: a) (y :: b) = x * y + dot a b := by
  simp [dot]

theorem dot_self_nonneg (a : List ℝ) : 0 ≤ dot a a := by
  induction a with
  | nil => simp [dot]
  | cons x a ih => rw [dot_cons]; nlinarith [sq_nonneg x]

/-- Cauchy–Schwarz for list dot products. -/
theorem dot_sq_le (a : List ℝ) : ∀ b : List ℝ, (dot a b) ^ 2 ≤ dot a a * dot b b := by
  induction a with
  | nil =>
    intro b
    simp [dot_nil]
  | cons x a ih =>
    intro b
    cases b with
    | nil => simp [dot_nil_right]
    | cons y b =>
      rw [dot_cons, dot_cons, dot_cons]
      have hA := dot_self_nonneg a
      have hB := dot_self_nonneg b
      have hab := ih b
      rcases eq_or_lt_of_le hA with hA0 | hApos
      · have hd2 : dot a b ^ 2 = 0 :=
          le_antisymm (by nlinarith) (sq_nonneg _)
        have hd : dot a b = 0 := pow_eq_zero_iff (two_ne_zero) |>.mp hd2
        rw [hd]
        nlinarith [mul_nonneg (sq_nonneg x) hB]
      · nlinarith [sq_nonneg (x * dot a b - dot a a * y),
          mul_nonneg (add_nonneg (sq_nonneg x) hA) (sub_nonneg.mpr hab), hApos]

theorem norm_nonneg' (a : List ℝ) : 0 ≤ norm a := Real.sqrt_nonneg _

theorem norm_mul_self (a : List ℝ) : norm a * norm a = dot a a :=
  Real.mul_self_sqrt (dot_self_nonneg a)

theorem norm_eq_zero_iff (a : List ℝ) : norm a = 0 ↔ dot a a = 0 := by
  constructor
  · intro h
    have := norm_mul_self a
    rw [h] at this
    linarith
  · intro h
    simp [norm, h]

theorem abs_dot_le (a b : List ℝ) : |dot a b| ≤ norm a * norm b := by
  have h1 : |dot a b| = Real.sqrt ((dot a b) ^ 2) := (Real.sqrt_sq_eq_abs _).symm
  rw [h1, norm, norm, ← Real.sqrt_mul (dot_self_nonneg a)]
  exact Real.sqrt_le_sqrt (dot_sq_le a b)

theorem dot_le_norm_mul_norm (a b : List ℝ) : dot a b ≤ norm a * norm b :=
  le_trans (le_abs_self _) (abs_dot_le a b)

/-- Cosine similarity never exceeds 1. -/
theorem similarity_le_one (a b : List ℝ) : similarity a b ≤ 1 := by
  unfold similarity
  split
  · norm_num
  · rename_i h
    push_neg at h
    have ha : 0 < norm a := lt_of_le_of_ne (norm_nonneg' a) (Ne.symm h.1)
    have hb : 0 < norm b := lt_of_le_of_ne (norm_nonneg' b) (Ne.symm h.2)
    rw [div_le_one (mul_pos ha hb)]
    exact dot_le_norm_mul_norm a b

/-- Self-similarity is exactly 1 for a vector of nonzero norm. -/
theorem similarity_self (a : List ℝ) (h : norm a ≠ 0) : similarity a a = 1 := by
  unfold similarity
  rw [if_neg (by tauto), norm_mul_self]
  have hd : dot a a ≠ 0 := fun hz => h ((norm_eq_zero_iff a).mpr hz)
  exact div_self hd

theorem not_mem_takeWhile_ne (w : String) :
    ∀ l : List String, w ∉ l.takeWhile (fun x => x != w) := by
  intro l hmem
  have := List.mem_takeWhile_imp hmem
  simp at this

/-- Strict monotonicity of rank: a strictly more similar vocabulary word
gets a strictly smaller rank. -/
theorem rank_of_lt_of_sim_lt (sim : String → ℝ) (ws : List String) {w1 w2 : String}
    (h1 : w1 ∈ ws) (hs : sim w2 < sim w1) :
    rank_of sim ws w1 < rank_of sim ws w2 := by
  unfold rank_of
  apply Nat.add_lt_add_left
  apply List.sum_lt_sum
  · intro v hv
    by_cases hp : sim w1 < sim v ∨ (sim v = sim w1 ∧ v ∈ ws.takeWhile (fun x => x != w1))
    · rw [if_pos hp, if_pos]
      rcases hp with hlt | ⟨heq, _⟩
      · exact Or.inl (lt_trans hs hlt)
      · exact Or.inl (heq ▸ hs)
    · rw [if_neg hp]
      exact Nat.zero_le _
  · refine ⟨w1, h1, ?_⟩
    rw [if_neg, if_pos (Or.inl hs)]
    · norm_num
    · rintro (hlt | ⟨_, hmem⟩)
      · exact lt_irrefl _ hlt
      · exact not_mem_takeWhile_ne w1 ws hmem

/-- The rank is 1 when no vocabulary word is strictly more similar and no
other word ties. -/
theorem rank_of_eq_one (sim : String → ℝ) (ws : List String) (w : String)
    (hle : ∀ v ∈ ws, sim v ≤ sim w) (hne : ∀ v ∈ ws, sim v = sim w → v = w) :
    rank_of sim ws w = 1 := by
  unfold rank_of
  have hz : (ws.map fun v =>
      if sim w < sim v ∨ (sim v = sim w ∧ v ∈ ws.takeWhile (fun x => x != w)) then 1 else 0).sum
      = 0 := by
    apply List.sum_eq_zero
    intro x hx
    rcases List.mem_map.mp hx with ⟨v, hv, hvx⟩
    rw [← hvx, if_neg]
    rintro (hlt | ⟨heq, hmem⟩)
    · exact absurd (hle v hv) (not_le.mpr hlt)
    · exact not_mem_takeWhile_ne w ws (hne v hv heq ▸ hmem)
  rw [hz]

theorem find?_update_self (sid : ℕ) (s' : GameSession) :
    ∀ l : List (ℕ × GameSession), (l.find? (fun e => e.1 == sid)).isSome →
      ((l.map (fun e => if e.1 == sid then (sid, s') else e)).find?
        (fun e => e.1 == sid)) = some (sid, s') := by
  intro l
  induction l with
  | nil => intro h; simp at h
  | cons e l ih =>
    intro h
    by_cases he : (e.1 == sid) = true
    · simp only [List.map_cons, if_pos he]
      exact List.find?_cons_of_pos _ (by simp)
    · simp only [List.map_cons, if_neg he]
      rw [List.find?_cons_of_neg _ (by simp_all)]
      apply ih
      rw [List.find?_cons_of_neg _ (by simp_all)] at h
      exact h

theorem get_update_self (st : SessionStore) (sid : ℕ) (s s' : GameSession)
    (h : st.get sid = some s) : (st.update sid s').get sid = some s' := by
  unfold SessionStore.get at h ⊢
  unfold SessionStore.update
  simp only
  have hsome : (st.sessions.find? (fun e => e.1 == sid)).isSome := by
    cases hf : st.sessions.find? (fun e => e.1 == sid) with
    | none => rw [hf] at h; simp at h
    | some e => simp [hf]
  rw [find?_update_self sid s' st.sessions hsome]

theorem get_eq_none_of_absent (st : SessionStore) (sid : ℕ)
    (h : ∀ e ∈ st.sessions, e.1 ≠ sid) : st.get sid = none := by
  unfold SessionStore.get
  have : st.sessions.find? (fun e => e.1 == sid) = none := by
    rw [List.find?_eq_none]
    intro e he
    simp [h e he]
  rw [this]

theorem norm_cat : norm catVec = 1 := by
  have h : dot catVec catVec = 1 := by norm_num [dot, catVec]
  rw [norm, h, Real.sqrt_one]

theorem norm_dog : norm dogVec = Real.sqrt 0.82 := by
  have h : dot dogVec dogVec = 0.82 := by norm_num [dot, dogVec]
  rw [norm, h]

theorem norm_car : norm carVec = 1 := by
  have h : dot carVec carVec = 1 := by norm_num [dot, carVec]
  rw [norm, h, Real.sqrt_one]

theorem norm_zero : norm zeroVec = 0 := by
  have h : dot zeroVec zeroVec = 0 := by norm_num [dot, zeroVec]
  rw [norm, h, Real.sqrt_zero]

theorem norm_dog_pos : 0 < norm dogVec := by
  rw [norm_dog]
  exact Real.sqrt_pos.mpr (by norm_num)

theorem sim_cat_dog_eq : similarity catVec dogVec = 0.9 / Real.sqrt 0.82 := by
  have hd : dot catVec dogVec = 0.9 := by norm_num [dot, catVec, dogVec]
  rw [similarity, if_neg, hd, norm_cat, norm_dog, one_mul]
  rw [norm_cat, norm_dog]
  push_neg
  exact ⟨one_ne_zero, ne_of_gt (Real.sqrt_pos.mpr (by norm_num))⟩

theorem sim_cat_dog_lower : 0.993 < similarity catVec dogVec := by
  rw [sim_cat_dog_eq]
  have hpos : (0:ℝ) < Real.sqrt 0.82 := Real.sqrt_pos.mpr (by norm_num)
  have hub : Real.sqrt 0.82 < 0.9 / 0.993 :=
    (Real.sqrt_lt' (by norm_num)).mpr (by norm_num)
  rw [lt_div_iff₀ hpos]
  nlinarith

theorem sim_cat_dog_upper : similarity catVec dogVec < 0.995 := by
  rw [sim_cat_dog_eq]
  have hpos : (0:ℝ) < Real.sqrt 0.82 := Real.sqrt_pos.mpr (by norm_num)
  have hlb : (0.9 / 0.995 : ℝ) < Real.sqrt 0.82 :=
    (Real.lt_sqrt (by norm_num)).mpr (by norm_num)
  rw [div_lt_iff₀ hpos]
  nlinarith

theorem sim_cat_dog_pos : 0 < similarity catVec dogVec :=
  lt_trans (by norm_num) sim_cat_dog_lower

theorem sim_cat_dog_lt_one : similarity catVec dogVec < 1 :=
  lt_trans sim_cat_dog_upper (by norm_num)

theorem sim_cat_car : similarity catVec carVec = 0 := by
  have hd : dot catVec carVec = 0 := by norm_num [dot, catVec, carVec]
  rw [similarity, if_neg, hd, zero_div]
  rw [norm_cat, norm_car]
  push_neg
  exact ⟨one_ne_zero, one_ne_zero⟩

theorem sim_cat_cat : similarity catVec catVec = 1 :=
  similarity_self _ (by rw [norm_cat]; exact one_ne_zero)

theorem vector_of_cat : vector_of catVocab "cat" = catVec := rfl

theorem vector_of_dog : vector_of catVocab "dog" = dogVec := rfl

theorem vector_of_car : vector_of catVocab "car" = carVec := rfl

theorem words_catVocab : words catVocab = ["cat", "dog", "car"] := rfl

theorem rank_dog :
    rank_of (fun v => similarity (vector_of catVocab "cat") (vector_of catVocab v))
      (words catVocab) "dog" = 2 := by
  unfold rank_of
  rw [words_catVocab]
  have htw : (["cat", "dog", "car"] : List String).takeWhile (fun x => x != "dog")
      = ["cat"] := rfl
  simp only [List.map_cons, List.map_nil, List.sum_cons, List.sum_nil, htw,
    vector_of_cat, vector_of_dog, vector_of_car]
  have hC1 : similarity catVec dogVec < similarity catVec catVec ∨
      (similarity catVec catVec = similarity catVec dogVec ∧ "cat" ∈ (["cat"] : List String)) :=
    Or.inl (by rw [sim_cat_cat]; exact sim_cat_dog_lt_one)
  have hC2 : ¬(similarity catVec dogVec < similarity catVec dogVec ∨
      (True ∧ "dog" ∈ (["cat"] : List String))) := by
    rintro (hlt | ⟨_, hmem⟩)
    · exact lt_irrefl _ hlt
    · simp at hmem
  have hC3 : ¬(similarity catVec dogVec < similarity catVec carVec ∨
      (similarity catVec carVec = similarity catVec dogVec ∧ "car" ∈ (["cat"] : List String))) := by
    rintro (hlt | ⟨_, hmem⟩)
    · rw [sim_cat_car] at hlt
      exact absurd hlt (not_lt.mpr (le_of_lt sim_cat_dog_pos))
    · simp at hmem
  rw [if_pos hC1, if_neg hC2, if_neg hC3]
  norm_num

theorem rank_car :
    rank_of (fun v => similarity (vector_of catVocab "cat") (vector_of catVocab v))
      (words catVocab) "car" = 3 := by
  unfold rank_of
  rw [words_catVocab]
  have htw : (["cat", "dog", "car"] : List String).takeWhile (fun x => x != "car")
      = ["cat", "dog"] := rfl
  simp only [List.map_cons, List.map_nil, List.sum_cons, List.sum_nil, htw,
    vector_of_cat, vector_of_dog, vector_of_car]
  have hC1 : similarity catVec carVec < similarity catVec catVec ∨
      (similarity catVec catVec = similarity catVec carVec ∧
        "cat" ∈ (["cat", "dog"] : List String)) :=
    Or.inl (by rw [sim_cat_cat, sim_cat_car]; norm_num)
  have hC2 : similarity catVec carVec < similarity catVec dogVec ∨
      (similarity catVec dogVec = similarity catVec carVec ∧
        "dog" ∈ (["cat", "dog"] : List String)) :=
    Or.inl (by rw [sim_cat_car]; exact sim_cat_dog_pos)
  have hC3 : ¬(similarity catVec carVec < similarity catVec carVec ∨
      (True ∧ "car" ∈ (["cat", "dog"] : List String))) := by
    rintro (hlt | ⟨_, hmem⟩)
    · exact lt_irrefl _ hlt
    · simp at hmem
  rw [if_pos hC1, if_pos hC2, if_neg hC3]
  norm_num

theorem rank_cat :
    rank_of (fun v => similarity (vector_of catVocab "cat") (vector_of catVocab v))
      (words catVocab) "cat" = 1 := by
  apply rank_of_eq_one
  · intro v hv
    rw [words_catVocab] at hv
    fin_cases hv
    · exact le_refl _
    · simp only [vector_of_cat, vector_of_dog]
      rw [sim_cat_cat]
      exact le_of_lt sim_cat_dog_lt_one
    · simp only [vector_of_cat, vector_of_car]
      rw [sim_cat_cat, sim_cat_car]
      norm_num
  · intro v hv heq
    rw [words_catVocab] at hv
    fin_cases hv
    · rfl
    · simp only [vector_of_cat, vector_of_dog] at heq
      rw [sim_cat_cat] at heq
      exact absurd heq (ne_of_lt sim_cat_dog_lt_one)
    · simp only [vector_of_cat, vector_of_car] at heq
      rw [sim_cat_cat, sim_cat_car] at heq
      norm_num at heq

theorem submit_guess_notfound (vocab : List Entry) (st : SessionStore) (sid : ℕ)
    (w : String) (hget : st.get sid = none) :
    submit_guess vocab st sid w = (.error .sessionNotFound, st) := by
  simp only [submit_guess, hget]

theorem submit_guess_completed (vocab : List Entry) (st : SessionStore) (sid : ℕ)
    (w : String) (s : GameSession) (hget : st.get sid = some s)
    (hdone : s.is_completed = true) :
    submit_guess vocab st sid w = (.error .sessionAlreadyCompleted, st) := by
  simp only [submit_guess, hget, hdone, if_true]

theorem submit_guess_invalid (vocab : List Entry) (st : SessionStore) (sid : ℕ)
    (w : String) (s : GameSession) (hget : st.get sid = some s)
    (hact : s.is_completed = false)
    (hmem : (words vocab).contains (normalizeWord w) = false) :
    submit_guess vocab st sid w = (.error .invalidWord, st) := by
  simp only [submit_guess, hget, hact, hmem, Bool.false_eq_true, if_false]

theorem submit_guess_valid (vocab : List Entry) (st : SessionStore) (sid : ℕ)
    (w : String) (s : GameSession) (hget : st.get sid = some s)
    (hact : s.is_completed = false)
    (hmem : (words vocab).contains (normalizeWord w) = true) :
    submit_guess vocab st sid w =
      (.ok ⟨similarity (vector_of vocab s.target_word) (vector_of vocab (normalizeWord w)),
            rank_of (fun v => similarity (vector_of vocab s.target_word) (vector_of vocab v))
              (words vocab) (normalizeWord w),
            (normalizeWord w == s.target_word)⟩,
        st.update sid
          { s with
            attempts := s.attempts ++
              [⟨normalizeWord w,
                similarity (vector_of vocab s.target_word) (vector_of vocab (normalizeWord w)),
                rank_of (fun v => similarity (vector_of vocab s.target_word)
                  (vector_of vocab v)) (words vocab) (normalizeWord w),
                (normalizeWord w == s.target_word)⟩],
            is_completed := (normalizeWord w == s.target_word) }) := by
  simp only [submit_guess, hget, hact, hmem, Bool.false_eq_true, if_false, if_true]

theorem submit_step_dog :
    submit_guess catVocab st1 0 "dog" = (.ok ⟨similarity catVec dogVec, 2, false⟩, st2) := by
  have h := submit_guess_valid catVocab st1 0 "dog" ⟨0, "cat", false, 0, [], false⟩ rfl rfl rfl
  rw [h, show normalizeWord "dog" = "dog" from rfl, rank_dog, vector_of_cat, vector_of_dog,
    show ("dog" == "cat") = false from rfl]
  rfl

theorem submit_step_car :
    submit_guess catVocab st2 0 "car" = (.ok ⟨0, 3, false⟩, st3) := by
  have h := submit_guess_valid catVocab st2 0 "car" ⟨0, "cat", false, 0, [dogAttempt], false⟩
    rfl rfl rfl
  rw [h, show normalizeWord "car" = "car" from rfl, rank_car, vector_of_cat, vector_of_car,
    show ("car" == "cat") = false from rfl, sim_cat_car]
  rfl

theorem submit_step_cat :
    submit_guess catVocab st3 0 "cat" = (.ok ⟨1, 1, true⟩, st4) := by
  have h := submit_guess_valid catVocab st3 0 "cat"
    ⟨0, "cat", false, 0, [dogAttempt, ⟨"car", 0, 3, false⟩], false⟩ rfl rfl rfl
  rw [h, show normalizeWord "cat" = "cat" from rfl, rank_cat, vector_of_cat,
    show ("cat" == "cat") = true from rfl, sim_cat_cat]
  rfl

theorem submitGame_zero (s : UserStats) (t : ℕ) : submitGame s 0 t = none := by
  simp [submitGame]

theorem submitGame_pos (s : UserStats) (a t : ℕ) (ha : a ≠ 0)
    (hg : s.totalGames + 1 < 2 ^ 256) (hatt : s.totalAttempts + a < 2 ^ 256) :
    submitGame s a t = some ⟨s.totalGames + 1, s.totalAttempts + a,
      if s.bestScore = 0 ∨ a < s.bestScore then a else s.bestScore, t⟩ := by
  rw [submitGame, if_neg ha, if_neg]
  push_neg
  exact ⟨hg, hatt⟩

theorem submitGame_bestScore_le (s s' : UserStats) (a t : ℕ) (hb : s.bestScore ≠ 0)
    (h : submitGame s a t = some s') : s'.bestScore ≤ s.bestScore := by
  by_cases ha : a = 0
  · rw [submitGame, if_pos ha] at h
    cases h
  · rw [submitGame, if_neg ha] at h
    by_cases hov : 2 ^ 256 ≤ s.totalGames + 1 ∨ 2 ^ 256 ≤ s.totalAttempts + a
    · rw [if_pos hov] at h
      cases h
    · rw [if_neg hov] at h
      injection h with h'
      rw [← h']
      show (if s.bestScore = 0 ∨ a < s.bestScore then a else s.bestScore) ≤ s.bestScore
      by_cases hlt : s.bestScore = 0 ∨ a < s.bestScore
      · rw [if_pos hlt]
        rcases hlt with h0 | hlt
        · exact absurd h0 hb
        · exact le_of_lt hlt
      · rw [if_neg hlt]

theorem processGames_spec (t : ℕ) :
    ∀ (l : List ℕ) (s : UserStats), (∀ a ∈ l, a ≠ 0) →
      s.totalGames + l.length < 2 ^ 256 → s.totalAttempts + l.sum < 2 ^ 256 →
      (processGames t s l).totalGames = s.totalGames + l.length ∧
      (processGames t s l).totalAttempts = s.totalAttempts + l.sum ∧
      (processGames t s l).bestScore = bestMin s.bestScore l := by
  intro l
  induction l with
  | nil =>
    intro s _ _ _
    exact ⟨by simp [processGames], by simp [processGames], by simp [processGames, bestMin]⟩
  | cons a rest ih =>
    intro s hnz hg hatt
    have hane : a ≠ 0 := hnz a (List.mem_cons_self a rest)
    have hg1 : s.totalGames + 1 < 2 ^ 256 := by
      simp only [List.length_cons] at hg
      omega
    have ha1 : s.totalAttempts + a < 2 ^ 256 := by
      simp only [List.sum_cons] at hatt
      omega
    rw [processGames, submitGame_pos s a t hane hg1 ha1]
    simp only [Option.getD_some]
    have hrec := ih ⟨s.totalGames + 1, s.totalAttempts + a,
        if s.bestScore = 0 ∨ a < s.bestScore then a else s.bestScore, t⟩
      (fun b hb => hnz b (List.mem_cons_of_mem _ hb))
      (by show s.totalGames + 1 + rest.length < 2 ^ 256
          simp only [List.length_cons] at hg
          omega)
      (by show s.totalAttempts + a + rest.sum < 2 ^ 256
          simp only [List.sum_cons] at hatt
          omega)
    refine ⟨?_, ?_, ?_⟩
    · rw [hrec.1]
      show s.totalGames + 1 + rest.length = s.totalGames + (a :: rest).length
      simp only [List.length_cons]
      omega
    · rw [hrec.2.1]
      show s.totalAttempts + a + rest.sum = s.totalAttempts + (a :: rest).sum
      simp only [List.sum_cons]
      omega
    · rw [hrec.2.2]
      conv_rhs => rw [bestMin, List.foldl_cons]
      rfl

theorem bestMin_zero_cons (a : ℕ) (rest : List ℕ) :
    bestMin 0 (a :: rest) = bestMin a rest := by
  rw [bestMin, List.foldl_cons]
  simp [bestMin]

theorem bestMin_spec :
    ∀ (l : List ℕ) (b : ℕ), b ≠ 0 → (∀ a ∈ l, a ≠ 0) →
      bestMin b l ∈ b :: l ∧ bestMin b l ≤ b ∧ ∀ a ∈ l, bestMin b l ≤ a := by
  intro l
  induction l with
  | nil =>
    intro b hb _
    exact ⟨List.mem_cons_self _ _, le_refl _, by simp⟩
  | cons a rest ih =>
    intro b hb hnz
    have hane : a ≠ 0 := hnz a (List.mem_cons_self a rest)
    have hstep : bestMin b (a :: rest) = bestMin (if b = 0 ∨ a < b then a else b) rest := by
      rw [bestMin, List.foldl_cons]
      rfl
    by_cases hab : a < b
    · rw [hstep, if_pos (Or.inr hab)]
      obtain ⟨hmem, hle, hall⟩ := ih a hane (fun c hc => hnz c (List.mem_cons_of_mem _ hc))
      refine ⟨List.mem_cons_of_mem _ hmem, le_of_lt (lt_of_le_of_lt hle hab), ?_⟩
      intro c hc
      rcases List.mem_cons.mp hc with h | h
      · exact hle.trans_eq h.symm
      · exact hall c h
    · rw [hstep, if_neg (by rintro (h0 | hlt); exact hb h0; exact hab hlt)]
      obtain ⟨hmem, hle, hall⟩ := ih b hb (fun c hc => hnz c (List.mem_cons_of_mem _ hc))
      refine ⟨?_, hle, ?_⟩
      · rcases List.mem_cons.mp hmem with h | h
        · exact List.mem_cons.mpr (Or.inl h)
        · exact List.mem_cons_of_mem _ (List.mem_cons_of_mem _ h)
      · intro c hc
        rcases List.mem_cons.mp hc with h | h
        · exact (hle.trans (not_lt.mp hab)).trans_eq h.symm
        · exact hall c h

theorem processGames_filter (t : ℕ) :
    ∀ (l : List ℕ) (s : UserStats),
      processGames t s l = processGames t s (l.filter (fun a => a != 0)) := by
  intro l
  induction l with
  | nil => intro s; rfl
  | cons a rest ih =>
    intro s
    by_cases ha : a = 0
    · subst ha
      rw [processGames, submitGame_zero]
      simp only [Option.getD_none]
      rw [ih s]
      congr 1
    · have hf : (a :: rest).filter (fun x => x != 0) = a :: rest.filter (fun x => x != 0) :=
        List.filter_cons_of_pos (by simp [ha])
      rw [processGames, ih, hf, processGames]

/-- Claim C1: for every target word and every pair of vocabulary words
`w1, w2`, if the similarity of `w1` to the target is strictly greater than
the similarity of `w2` to the target, then the rank of `w1` in the
full-vocabulary ordering by similarity (descending) is strictly smaller
than the rank of `w2`. -/
theorem C1_rank_monotonicity (vocab : List Entry) (target w1 w2 : String)
    (h1 : w1 ∈ words vocab) (_h2 : w2 ∈ words vocab)
    (hsim : similarity (vector_of vocab target) (vector_of vocab w2)
          < similarity (vector_of vocab target) (vector_of vocab w1)) :
    rank_of (fun v => similarity (vector_of vocab target) (vector_of vocab v))
        (words vocab) w1
      < rank_of (fun v => similarity (vector_of vocab target) (vector_of vocab v))
        (words vocab) w2 :=
  rank_of_lt_of_sim_lt _ _ h1 hsim

theorem C1_rank_monotonicity_witness :
    "dog" ∈ words catVocab ∧ "car" ∈ words catVocab ∧
    similarity (vector_of catVocab "cat") (vector_of catVocab "car")
      < similarity (vector_of catVocab "cat") (vector_of catVocab "dog") ∧
    rank_of (fun v => similarity (vector_of catVocab "cat") (vector_of catVocab v))
        (words catVocab) "dog"
      < rank_of (fun v => similarity (vector_of catVocab "cat") (vector_of catVocab v))
        (words catVocab) "car" := by
  have hmem1 : "dog" ∈ words catVocab := by rw [words_catVocab]; simp
  have hmem2 : "car" ∈ words catVocab := by rw [words_catVocab]; simp
  have hsim : similarity (vector_of catVocab "cat") (vector_of catVocab "car")
      < similarity (vector_of catVocab "cat") (vector_of catVocab "dog") := by
    rw [vector_of_cat, vector_of_car, vector_of_dog, sim_cat_car]
    exact sim_cat_dog_pos
  exact ⟨hmem1, hmem2, hsim, C1_rank_monotonicity catVocab "cat" "dog" "car" hmem1 hmem2 hsim⟩

/-- Claim C2: the target word's similarity to itself is 1.0 and its rank
is 1, for any target whose vector has nonzero norm, provided no other
vocabulary word is degenerately at similarity exactly 1 (distinct words of
a real embedding are never perfectly colinear; with such a tie the
vocabulary-order tie-break could place the other word first). -/
theorem C2_target_rank_one (vocab : List Entry) (target : String)
    (_hmem : target ∈ words vocab)
    (hn : norm (vector_of vocab target) ≠ 0)
    (hstrict : ∀ v ∈ words vocab, v ≠ target →
      similarity (vector_of vocab target) (vector_of vocab v) ≠ 1) :
    similarity (vector_of vocab target) (vector_of vocab target) = 1 ∧
    rank_of (fun v => similarity (vector_of vocab target) (vector_of vocab v))
      (words vocab) target = 1 := by
  have hself : similarity (vector_of vocab target) (vector_of vocab target) = 1 :=
    similarity_self _ hn
  refine ⟨hself, rank_of_eq_one _ _ _ ?_ ?_⟩
  · intro v hv
    show similarity (vector_of vocab target) (vector_of vocab v)
        ≤ similarity (vector_of vocab target) (vector_of vocab target)
    rw [hself]
    exact similarity_le_one _ _
  · intro v hv heq
    by_contra hne
    exact hstrict v hv hne (heq.trans hself)

theorem C2_target_rank_one_witness :
    "cat" ∈ words catVocab ∧ norm (vector_of catVocab "cat") ≠ 0 ∧
    (similarity (vector_of catVocab "cat") (vector_of catVocab "cat") = 1 ∧
     rank_of (fun v => similarity (vector_of catVocab "cat") (vector_of catVocab v))
       (words catVocab) "cat" = 1) := by
  have hmem : "cat" ∈ words catVocab := by rw [words_catVocab]; simp
  have hn : norm (vector_of catVocab "cat") ≠ 0 := by
    rw [vector_of_cat, norm_cat]
    exact one_ne_zero
  have hstrict : ∀ v ∈ words catVocab, v ≠ "cat" →
      similarity (vector_of catVocab "cat") (vector_of catVocab v) ≠ 1 := by
    intro v hv hne
    rw [words_catVocab] at hv
    fin_cases hv
    · exact absurd rfl hne
    · rw [vector_of_cat, vector_of_dog]
      exact ne_of_lt sim_cat_dog_lt_one
    · rw [vector_of_cat, vector_of_car, sim_cat_car]
      norm_num
  exact ⟨hmem, hn, C2_target_rank_one catVocab "cat" hmem hn hstrict⟩

/-- Claim C3: daily-mode determinism — two sessions created with
`daily=true` on the same UTC calendar date receive the identical target
word, whatever the state of the random seed (the mutable state re-rolled
at boot); and on a nonempty vocabulary the chosen word exists and belongs
to the vocabulary. -/
theorem C3_daily_determinism (ws : List String) (date : String) (seed1 seed2 : ℕ) :
    select_target ws true date seed1 = select_target ws true date seed2 ∧
    (ws ≠ [] → ∃ w, select_target ws true date seed1 = some w ∧ w ∈ ws) := by
  constructor
  · rfl
  · intro hne
    have hlen : 0 < ws.length := List.length_pos.mpr hne
    have hidx : dateHash date % ws.length < ws.length := Nat.mod_lt _ hlen
    show ∃ w, daily_target ws date = some w ∧ w ∈ ws
    rw [daily_target, List.get?_eq_get hidx]
    exact ⟨ws.get ⟨dateHash date % ws.length, hidx⟩, rfl, List.get_mem _ _ hidx⟩

theorem C3_daily_determinism_witness :
    select_target ["cat", "dog", "car"] true "2026-10-11" 0
      = select_target ["cat", "dog", "car"] true "2026-10-11" 99 ∧
    ∃ w, select_target ["cat", "dog", "car"] true "2026-10-11" 0 = some w ∧
      w ∈ (["cat", "dog", "car"] : List String) := by
  have h := C3_daily_determinism ["cat", "dog", "car"] "2026-10-11" 0 99
  exact ⟨h.1, h.2 (by simp)⟩

/-- Claim C6: `similarity` is total — it equals dot(a,b)/(‖a‖·‖b‖) when
both norms are nonzero, and is 0 (not an error) when either norm is
zero. -/
theorem C6_similarity_total (a b : List ℝ) :
    ((norm a ≠ 0 ∧ norm b ≠ 0) → similarity a b = dot a b / (norm a * norm b)) ∧
    ((norm a = 0 ∨ norm b = 0) → similarity a b = 0) := by
  constructor
  · intro h
    rw [similarity, if_neg]
    rintro (h0 | h0)
    exacts [h.1 h0, h.2 h0]
  · intro h
    rw [similarity, if_pos h]

theorem C6_similarity_total_witness :
    (norm zeroVec = 0 ∨ norm catVec = 0) ∧ similarity zeroVec catVec = 0 ∧
    (norm catVec ≠ 0 ∧ norm carVec ≠ 0) ∧
    similarity catVec carVec = dot catVec carVec / (norm catVec * norm carVec) := by
  have hz : norm zeroVec = 0 := norm_zero
  have hc : norm catVec ≠ 0 := by rw [norm_cat]; exact one_ne_zero
  have hr : norm carVec ≠ 0 := by rw [norm_car]; exact one_ne_zero
  exact ⟨Or.inl hz, (C6_similarity_total zeroVec catVec).2 (Or.inl hz), ⟨hc, hr⟩,
    (C6_similarity_total catVec carVec).1 ⟨hc, hr⟩⟩

/-- Claim C7: `create` returns a session with a fresh unique id (absent
from the store before the call, present and fully initialized after),
`attempts = []` and `is_completed = false`; `get` on an id not in the
store returns NotFound (`none`), never a crash or a partial session. -/
theorem C7_session_store_contract (st : SessionStore) (target : String) (d : Bool)
    (now : ℕ) (sid : ℕ) (hwf : st.WF) (habs : ∀ e ∈ st.sessions, e.1 ≠ sid) :
    (st.create target d now).1.attempts = [] ∧
    (st.create target d now).1.is_completed = false ∧
    st.get (st.create target d now).1.session_id = none ∧
    (st.create target d now).2.get (st.create target d now).1.session_id
      = some (st.create target d now).1 ∧
    st.get sid = none := by
  refine ⟨rfl, rfl, ?_, ?_, get_eq_none_of_absent st sid habs⟩
  · apply get_eq_none_of_absent
    intro e he
    exact Nat.ne_of_lt (hwf e he)
  · show SessionStore.get
        ⟨(st.next_id, (st.create target d now).1) :: st.sessions, st.next_id + 1⟩ st.next_id
      = some (st.create target d now).1
    unfold SessionStore.get
    rw [List.find?_cons_of_pos _ (by simp)]

theorem C7_session_store_contract_witness :
    st1.WF ∧ (∀ e ∈ st1.sessions, e.1 ≠ 5) ∧
    ((st1.create "dog" false 3).1.attempts = [] ∧
     (st1.create "dog" false 3).1.is_completed = false ∧
     st1.get (st1.create "dog" false 3).1.session_id = none ∧
     (st1.create "dog" false 3).2.get (st1.create "dog" false 3).1.session_id
       = some (st1.create "dog" false 3).1 ∧
     st1.get 5 = none) := by
  have hwf : st1.WF := by
    intro e he
    rw [show st1.sessions = [(0, ⟨0, "cat", false, 0, [], false⟩)] from rfl] at he
    rw [List.mem_singleton.mp he]
    exact Nat.zero_lt_one
  have habs : ∀ e ∈ st1.sessions, e.1 ≠ 5 := by
    intro e he
    rw [show st1.sessions = [(0, ⟨0, "cat", false, 0, [], false⟩)] from rfl] at he
    rw [List.mem_singleton.mp he]
    exact fun h => absurd h (by decide)
  exact ⟨hwf, habs, C7_session_store_contract st1 "dog" false 3 5 hwf habs⟩

/-- Claim C4: guessing a word that is not in the vocabulary (after trim
and lower-casing) fails with `InvalidWord` and leaves the session store
unchanged — no attempt is recorded and `is_completed` is untouched. -/
theorem C4_invalid_word_no_mutation (vocab : List Entry) (st : SessionStore)
    (sid : ℕ) (w : String) (s : GameSession) (hget : st.get sid = some s)
    (hact : s.is_completed = false)
    (hnot : (words vocab).contains (normalizeWord w) = false) :
    submit_guess vocab st sid w = (.error .invalidWord, st) :=
  submit_guess_invalid vocab st sid w s hget hact hnot

theorem C4_invalid_word_no_mutation_witness :
    st1.get 0 = some ⟨0, "cat", false, 0, [], false⟩ ∧
    (words catVocab).contains (normalizeWord "plane") = false ∧
    submit_guess catVocab st1 0 "plane" = (.error .invalidWord, st1) := by
  have hget : st1.get 0 = some ⟨0, "cat", false, 0, [], false⟩ := rfl
  have hnot : (words catVocab).contains (normalizeWord "plane") = false := rfl
  exact ⟨hget, hnot, C4_invalid_word_no_mutation catVocab st1 0 "plane" _ hget rfl hnot⟩

/-- Claim C5: completion is terminal.  Guessing the target word on an
active session succeeds, appending the correct attempt and setting
`is_completed = true` in the same atomic transition; any `submit_guess`
against a completed session fails with `SessionAlreadyCompleted` and
returns the store unchanged, so the attempts sequence is never altered and
no guess is ever scored after completion. -/
theorem C5_completion_terminal (vocab : List Entry) (st : SessionStore) (sid : ℕ)
    (w : String) (s : GameSession) (hget : st.get sid = some s) :
    (s.is_completed = true →
      submit_guess vocab st sid w = (.error .sessionAlreadyCompleted, st)) ∧
    (s.is_completed = false → normalizeWord w = s.target_word →
      (words vocab).contains s.target_word = true →
      submit_guess vocab st sid w =
        (.ok ⟨tSim vocab s, tRank vocab s, true⟩,
          st.update sid (completedSession vocab s)) ∧
      (st.update sid (completedSession vocab s)).get sid
        = some (completedSession vocab s) ∧
      (completedSession vocab s).is_completed = true ∧
      (completedSession vocab s).attempts
        = s.attempts ++ [⟨s.target_word, tSim vocab s, tRank vocab s, true⟩]) := by
  constructor
  · intro hdone
    exact submit_guess_completed vocab st sid w s hget hdone
  · intro hact hnorm hmem
    have hmem' : (words vocab).contains (normalizeWord w) = true := by
      rw [hnorm]
      exact hmem
    have h := submit_guess_valid vocab st sid w s hget hact hmem'
    rw [hnorm] at h
    simp only [beq_self_eq_true] at h
    exact ⟨h, get_update_self st sid s _ hget, rfl, rfl⟩

theorem C5_completion_terminal_witness :
    st4.get 0 = some s4sess ∧ s4sess.is_completed = true ∧
    submit_guess catVocab st4 0 "dog" = (.error .sessionAlreadyCompleted, st4) ∧
    st3.get 0 = some s3sess ∧ s3sess.is_completed = false ∧
    normalizeWord "cat" = s3sess.target_word ∧
    (words catVocab).contains s3sess.target_word = true ∧
    (submit_guess catVocab st3 0 "cat" =
        (.ok ⟨tSim catVocab s3sess, tRank catVocab s3sess, true⟩,
          st3.update 0 (completedSession catVocab s3sess)) ∧
      (st3.update 0 (completedSession catVocab s3sess)).get 0
        = some (completedSession catVocab s3sess) ∧
      (completedSession catVocab s3sess).is_completed = true ∧
      (completedSession catVocab s3sess).attempts
        = s3sess.attempts ++
          [⟨s3sess.target_word, tSim catVocab s3sess, tRank catVocab s3sess, true⟩]) :=
  ⟨rfl, rfl, (C5_completion_terminal catVocab st4 0 "dog" s4sess rfl).1 rfl,
    rfl, rfl, rfl, rfl,
    (C5_completion_terminal catVocab st3 0 "cat" s3sess rfl).2 rfl rfl rfl⟩

/-- Claim C8: the concrete scenario.  On the vocabulary
{"cat":[1,0], "dog":[0.9,0.1], "car":[0,1]} with target "cat": a fresh
session is created; guessing "dog" yields similarity ≈ 0.994 (strictly
between 0.993 and 0.995) and rank 2; guessing "car" yields similarity 0
and rank 3; guessing "cat" yields similarity 1.0, rank 1, `is_correct`,
and the session becomes completed. -/
theorem C8_concrete_scenario :
    SessionStore.create ⟨[], 0⟩ "cat" false 0 = (⟨0, "cat", false, 0, [], false⟩, st1) ∧
    (0.993 < similarity catVec dogVec ∧ similarity catVec dogVec < 0.995) ∧
    similarity catVec carVec = 0 ∧
    similarity catVec catVec = 1 ∧
    submit_guess catVocab st1 0 "dog" = (.ok ⟨similarity catVec dogVec, 2, false⟩, st2) ∧
    submit_guess catVocab st2 0 "car" = (.ok ⟨0, 3, false⟩, st3) ∧
    submit_guess catVocab st3 0 "cat" = (.ok ⟨1, 1, true⟩, st4) ∧
    (st4.get 0).map GameSession.is_completed = some true :=
  ⟨rfl, ⟨sim_cat_dog_lower, sim_cat_dog_upper⟩, sim_cat_car, sim_cat_cat,
    submit_step_dog, submit_step_car, submit_step_cat, rfl⟩

theorem sum_filter_le (p : ℕ → Bool) : ∀ l : List ℕ, (l.filter p).sum ≤ l.sum := by
  intro l
  induction l with
  | nil => simp
  | cons a rest ih =>
    by_cases hp : p a
    · rw [List.filter_cons_of_pos hp, List.sum_cons, List.sum_cons]
      omega
    · rw [List.filter_cons_of_neg hp, List.sum_cons]
      omega

/-- Claim C9: invariants of the on-chain stats store.  A submission with
0 attempts reverts; an accepted submission increments `totalGames` by 1
and adds the attempts to `totalAttempts`; starting from fresh stats the
final `bestScore` is the minimum over all accepted submissions; and once
set, `bestScore` never increases. -/
theorem C9_stats_invariant :
    (∀ (s : UserStats) (t : ℕ), submitGame s 0 t = none) ∧
    (∀ (s : UserStats) (a t : ℕ), a ≠ 0 → s.totalGames + 1 < 2 ^ 256 →
      s.totalAttempts + a < 2 ^ 256 → ∃ s', submitGame s a t = some s' ∧
        s'.totalGames = s.totalGames + 1 ∧ s'.totalAttempts = s.totalAttempts + a) ∧
    (∀ (s s' : UserStats) (a t : ℕ), s.bestScore ≠ 0 → submitGame s a t = some s' →
      s'.bestScore ≤ s.bestScore) ∧
    (∀ (calls : List ℕ) (t : ℕ), calls.length < 2 ^ 256 → calls.sum < 2 ^ 256 →
      calls.filter (fun a => a != 0) ≠ [] →
      (processGames t ⟨0, 0, 0, 0⟩ calls).bestScore ∈ calls.filter (fun a => a != 0) ∧
      ∀ a ∈ calls.filter (fun a => a != 0),
        (processGames t ⟨0, 0, 0, 0⟩ calls).bestScore ≤ a) := by
  refine ⟨fun s t => submitGame_zero s t, ?_, ?_, ?_⟩
  · intro s a t ha hg hatt
    exact ⟨_, submitGame_pos s a t ha hg hatt, rfl, rfl⟩
  · intro s s' a t hb h
    exact submitGame_bestScore_le s s' a t hb h
  · intro calls t hlen hsum hne
    have hnz : ∀ a ∈ calls.filter (fun a => a != 0), a ≠ 0 := by
      intro a ha
      have := (List.mem_filter.mp ha).2
      simpa using this
    have hlen' : (⟨0, 0, 0, 0⟩ : UserStats).totalGames
        + (calls.filter (fun a => a != 0)).length < 2 ^ 256 := by
      have : (calls.filter (fun a => a != 0)).length ≤ calls.length :=
        List.length_filter_le _ _
      show 0 + (calls.filter (fun a => a != 0)).length < 2 ^ 256
      omega
    have hsum' : (⟨0, 0, 0, 0⟩ : UserStats).totalAttempts
        + (calls.filter (fun a => a != 0)).sum < 2 ^ 256 := by
      have : (calls.filter (fun a => a != 0)).sum ≤ calls.sum := sum_filter_le _ calls
      show 0 + (calls.filter (fun a => a != 0)).sum < 2 ^ 256
      omega
    have hspec := processGames_spec t (calls.filter (fun a => a != 0)) ⟨0, 0, 0, 0⟩
      hnz hlen' hsum'
    rw [← processGames_filter] at hspec
    obtain ⟨a0, rest, hcons⟩ := List.exists_cons_of_ne_nil hne
    have ha0 : a0 ≠ 0 := hnz a0 (by rw [hcons]; exact List.mem_cons_self _ _)
    have hrest : ∀ a ∈ rest, a ≠ 0 := by
      intro a ha
      exact hnz a (by rw [hcons]; exact List.mem_cons_of_mem _ ha)
    have hbest : (processGames t ⟨0, 0, 0, 0⟩ calls).bestScore = bestMin a0 rest := by
      rw [hspec.2.2]
      show bestMin 0 (calls.filter (fun a => a != 0)) = bestMin a0 rest
      rw [hcons, bestMin_zero_cons]
    obtain ⟨hmem, _, hall⟩ := bestMin_spec rest a0 ha0 hrest
    constructor
    · rw [hbest, hcons]
      exact hmem
    · intro a ha
      rw [hcons] at ha
      rcases List.mem_cons.mp ha with h | h
      · rw [hbest]
        exact (bestMin_spec rest a0 ha0 hrest).2.1.trans_eq h.symm
      · rw [hbest]
        exact hall a h

theorem C9_stats_invariant_witness :
    submitGame ⟨0, 0, 0, 0⟩ 0 7 = none ∧
    (∃ s', submitGame ⟨3, 20, 4, 0⟩ 2 7 = some s' ∧
      s'.totalGames = 4 ∧ s'.totalAttempts = 22) ∧
    ((processGames 7 ⟨0, 0, 0, 0⟩ [10, 5, 3]).bestScore
        ∈ ([10, 5, 3] : List ℕ).filter (fun a => a != 0) ∧
      ∀ a ∈ ([10, 5, 3] : List ℕ).filter (fun a => a != 0),
        (processGames 7 ⟨0, 0, 0, 0⟩ [10, 5, 3]).bestScore ≤ a) := by
  have h := C9_stats_invariant
  refine ⟨h.1 ⟨0, 0, 0, 0⟩ 7, ?_, ?_⟩
  · obtain ⟨s', hs, h1, h2⟩ := h.2.1 ⟨3, 20, 4, 0⟩ 2 7 (by norm_num)
      (by norm_num) (by norm_num)
    exact ⟨s', hs, h1.trans rfl, h2.trans rfl⟩
  · exact h.2.2.2 [10, 5, 3] 7 (by norm_num) (by norm_num) (by decide)

/-- Claim C10: for rank ≥ 1, positive `maxSimilarity` and
`similarity ≤ maxSimilarity`, `calculateProximity` returns the number
1000 at rank 1, and otherwise 'cold', 'tepid', or a rounded integer in
[500, 1000]; it never returns a negative number. -/
theorem C10_proximity_buckets (rank : ℕ) (s m : ℚ) (hr : 1 ≤ rank) (hm : 0 < m)
    (hs : s ≤ m) :
    (rank = 1 → calculateProximity rank s m = .score 1000) ∧
    (calculateProximity rank s m = .cold ∨ calculateProximity rank s m = .tepid ∨
      ∃ n : ℤ, calculateProximity rank s m = .score n ∧ 500 ≤ n ∧ n ≤ 1000) := by
  constructor
  · intro h1
    simp [calculateProximity, h1]
  · by_cases h1 : rank = 1
    · right; right
      exact ⟨1000, by simp [calculateProximity, h1], by norm_num, by norm_num⟩
    · have hr2 : 2 ≤ rank := by omega
      simp only [calculateProximity, if_neg h1]
      set p : ℚ := max 0 (s / m * 1000 - ((rank : ℚ) - 1) * 2) with hp
      by_cases hc : p < 200
      · left
        rw [if_pos hc]
      · by_cases ht : p < 500
        · right; left
          rw [if_neg hc, if_pos ht]
        · right; right
          refine ⟨round p, by rw [if_neg hc, if_neg ht], ?_, ?_⟩
          · have h500 : (500 : ℚ) ≤ p := not_lt.mp ht
            rw [round_eq]
            exact Int.le_floor.mpr (by push_cast; linarith)
          · have hub : p ≤ 998 := by
              rw [hp]
              apply max_le
              · norm_num
              · have hsm : s / m ≤ 1 := (div_le_one hm).mpr hs
                have hrk : (2 : ℚ) ≤ (rank : ℚ) := by exact_mod_cast hr2
                nlinarith
            rw [round_eq]
            have hlt : ⌊p + 1 / 2⌋ < 1001 := Int.floor_lt.mpr (by push_cast; linarith)
            linarith

theorem C10_proximity_buckets_witness :
    (1 : ℕ) ≤ 2 ∧ (0 : ℚ) < 1 ∧ (1 : ℚ) ≤ 1 ∧
    ((2 = 1 → calculateProximity 2 1 1 = .score 1000) ∧
      (calculateProximity 2 1 1 = .cold ∨ calculateProximity 2 1 1 = .tepid ∨
        ∃ n : ℤ, calculateProximity 2 1 1 = .score n ∧ 500 ≤ n ∧ n ≤ 1000)) :=
  ⟨by norm_num, by norm_num, le_refl 1,
    C10_proximity_buckets 2 1 1 (by norm_num) (by norm_num) (le_refl 1)⟩

end Semantle

